import Mathlib

/-!
Verification of the transcript paragraph/word reconciliation engine of the
rbti-transcriber repository (`src/api/services/transcript_processor.py` and
`src/api/services/version_manager.py`), against its natural-language
specification.

Shallow embedding conventions:
* Python `float` values (times, confidences, durations) are modelled as `ℚ`.
* Python `int` is `Int`; list positions are `Nat`.
* Python `Optional[T]` is `Option T`.
* The Python field `end` is called `endT` here (`end` is a Lean keyword);
  every other field keeps its source name.
* Python string helpers (`str.split()`, `str.strip()`, `str.lower()`,
  `" ".join`) are modelled by structurally recursive functions over the
  character list (`pySplit`, `pyStrip`, `lowerStr`, `pyJoin`) with Python's
  documented behaviour: `split()` splits on runs of whitespace and drops
  empty tokens, `strip()` removes leading/trailing whitespace.
* Stateful file I/O (the version store) is modelled by explicit state
  passing over a state record.
-/

/-- Python `str.lower()` (character-wise lowering of the character list). -/
def lowerStr (s : String) : String := ⟨s.data.map Char.toLower⟩

/-- Python `str.strip()`: remove leading and trailing whitespace. -/
def pyStrip (s : String) : String :=
  ⟨((s.data.dropWhile Char.isWhitespace).reverse.dropWhile Char.isWhitespace).reverse⟩

/-- Helper for `pySplit`: walk the characters, accumulating the current
(reversed) token in `acc`; whitespace ends a token, and runs of whitespace
produce no empty tokens — Python `str.split()` with no arguments. -/
def pySplitAux : List Char → List Char → List String
  | acc, [] => if acc.isEmpty then [] else [⟨acc.reverse⟩]
  | acc, c :: rest =>
    if c.isWhitespace then
      if acc.isEmpty then pySplitAux [] rest
      else ⟨acc.reverse⟩ :: pySplitAux [] rest
    else pySplitAux (c :: acc) rest

/-- Python `str.split()` (no separator): split on whitespace runs. -/
def pySplit (s : String) : List String := pySplitAux [] s.data

/-- Python `sep.join(parts)`. -/
def pyJoin (sep : String) : List String → String
  | [] => ""
  | s :: rest => rest.foldl (fun a b => a ++ sep ++ b) s

/-- `api/models.py` `WordData`: one recognized token with timing, confidence
and speaker attribution. `endT` is the source's `end` field. -/
structure WordData where
  word : String
  start : ℚ
  endT : ℚ
  confidence : ℚ
  speaker : Int
  speaker_confidence : ℚ
  punctuated_word : String
  index : Option Int
deriving DecidableEq, Repr

instance : Inhabited WordData := ⟨⟨"", 0, 0, 0, 0, 0, "", none⟩⟩

/-- `api/models.py` `SentenceData` (fields as constructed by
`TranscriptProcessor`). -/
structure SentenceData where
  id : String
  text : String
  start : ℚ
  endT : ℚ
  words : List WordData
  speaker : Int
deriving DecidableEq, Repr

/-- `api/models.py` `ParagraphData`. -/
structure ParagraphData where
  id : String
  text : String
  start_time : ℚ
  end_time : ℚ
  speaker : Int
  sentences : List SentenceData
  words : List WordData
  confidence : ℚ
deriving DecidableEq, Repr

/-- A word dict of the provider-native `paragraphs` structure
(`word_data` in `_extract_from_paragraphs_structure`): `speaker`,
`speaker_confidence` and `punctuated_word` are read with `.get` defaults,
so they are optional here. -/
structure RawWord where
  word : String
  start : ℚ
  endT : ℚ
  confidence : ℚ
  speaker : Option Int
  speaker_confidence : Option ℚ
  punctuated_word : Option String
deriving DecidableEq, Repr

/-- A sentence dict of the provider-native `paragraphs` structure; `id` is
read with a `.get` default. -/
structure RawSentence where
  id : Option String
  text : String
  words : List RawWord
deriving DecidableEq, Repr

/-- A paragraph dict of the provider-native `paragraphs` structure. -/
structure RawParagraph where
  sentences : List RawSentence
deriving DecidableEq, Repr

/-- `api/models.py` `DeepgramMetadata`. `model_info` is an opaque dict in the
source; it is modelled as an association list. -/
structure DeepgramMetadata where
  request_id : String
  sha256 : Option String
  created : String
  duration : ℚ
  channels : Int
  models : List String
  model_info : List (String × String)
deriving DecidableEq, Repr

/-- `api/models.py` `DeepgramAlternative`. The source's `paragraphs` field is
`Optional[dict]`; the dispatch in `extract_paragraphs` uses it only through
`alternative.paragraphs and "paragraphs" in alternative.paragraphs` (a dict
holding the key `"paragraphs"` is non-empty, hence truthy), so the field is
modelled as `some ps` exactly when the dict exists and holds the
`"paragraphs"` key, with `ps` that key's list. -/
structure DeepgramAlternative where
  transcript : String
  words : List WordData
  paragraphs : Option (List RawParagraph)
deriving DecidableEq, Repr

/-- `api/models.py` `DeepgramChannel`. -/
structure DeepgramChannel where
  alternatives : List DeepgramAlternative
deriving DecidableEq, Repr

/-- `api/models.py` `DeepgramResults`. -/
structure DeepgramResults where
  channels : List DeepgramChannel
deriving DecidableEq, Repr

/-- `api/models.py` `DeepgramResponse`. -/
structure DeepgramResponse where
  metadata : DeepgramMetadata
  results : DeepgramResults
deriving DecidableEq, Repr

/-! ## Timing Reconciliation Engine
`TranscriptProcessor.calculate_timing_adjustments`
(`transcript_processor.py` lines 327-401). -/

/-- The matched branch of the reconciliation loop (lines 371-383): reuse the
original word's timing/confidence/speaker data verbatim, replacing only the
display text, with `index` the position in the new sequence. -/
def posReuse (mw : WordData) (tok : String) (i : Nat) : WordData :=
  { word := tok, start := mw.start, endT := mw.endT, confidence := mw.confidence,
    speaker := mw.speaker, speaker_confidence := mw.speaker_confidence,
    punctuated_word := tok, index := some (Int.ofNat i) }

/-- The synthesized branch of the reconciliation loop (lines 384-397):
interpolated timing from the running cursor `ct`, fixed confidence 0.8, the
first original word's speaker. -/
def posSynth (ws : List WordData) (tpc : ℚ) (tok : String) (i : Nat) (ct : ℚ) : WordData :=
  { word := tok, start := ct, endT := ct + (tok.length : ℚ) * tpc, confidence := 0.8,
    speaker := (ws.headD default).speaker, speaker_confidence := 0.8,
    punctuated_word := tok, index := some (Int.ofNat i) }

/-- One iteration's output word (lines 364-396): position `i` is matched
when it is within range of `original_words` and the original word's `word`
equals the token case-insensitively. -/
def stepWord (ws : List WordData) (tpc : ℚ) (i : Nat) (ct : ℚ) (tok : String) : WordData :=
  match ws.get? i with
  | some mw =>
    if lowerStr mw.word = lowerStr tok then posReuse mw tok i
    else posSynth ws tpc tok i ct
  | none => posSynth ws tpc tok i ct

/-- The `current_time` cursor after one iteration (lines 383, 397): a match
moves it to the matched word's `end`; a synthesized word moves it past the
interpolated duration plus the fixed 0.1 gap. -/
def nextCursor (ws : List WordData) (tpc : ℚ) (i : Nat) (ct : ℚ) (tok : String) : ℚ :=
  match ws.get? i with
  | some mw =>
    if lowerStr mw.word = lowerStr tok then mw.endT
    else ct + (tok.length : ℚ) * tpc + 0.1
  | none => ct + (tok.length : ℚ) * tpc + 0.1

/-- The `for i, token in enumerate(new_tokens)` loop of
`calculate_timing_adjustments` (lines 364-399), with the loop state
(`i`, `current_time`) passed explicitly. -/
def adjustLoop (ws : List WordData) (tpc : ℚ) : Nat → ℚ → List String → List WordData
  | _, _, [] => []
  | i, ct, tok :: rest =>
    stepWord ws tpc i ct tok :: adjustLoop ws tpc (i + 1) (nextCursor ws tpc i ct tok) rest

/-- The `time_per_char` interpolation factor (lines 356-359):
`total_duration / original_char_count` where `total_duration` is
`original_words[-1].end - original_words[0].start`, guarding division by a
zero character count (→ 0). -/
def timePerChar (original_text : String) (original_words : List WordData) : ℚ :=
  let total_duration :=
    (original_words.getLastD default).endT - (original_words.headD default).start
  let original_char_count := original_text.length
  if 0 < original_char_count then total_duration / (original_char_count : ℚ) else 0

/-- `TranscriptProcessor.calculate_timing_adjustments` (lines 327-401).
The source also computes `original_tokens = original_text.split()`, which the
body never reads; it is omitted here. -/
def calculate_timing_adjustments (original_text new_text : String)
    (original_words : List WordData) : List WordData :=
  let new_tokens := pySplit new_text
  if original_words = [] then []
  else if pyStrip original_text = pyStrip new_text then original_words
  else
    adjustLoop original_words (timePerChar original_text original_words) 0
      ((original_words.headD default).start) new_tokens

/-- Position `i` of the new token list is matched (lines 366-371): `i` is
within range of `original_words` and the original word at `i` has `word`
equal to the token case-insensitively. -/
def posMatchB (ws : List WordData) (i : Nat) (tok : String) : Bool :=
  match ws.get? i with
  | some mw => lowerStr mw.word == lowerStr tok
  | none => false

/-- The value of the `current_time` cursor when the reconciliation loop
reaches position `k` of the remaining token list `ts`, having started at
absolute position `i` with cursor `ct` — the specification-side recursion
used to state the per-position characterization of `adjustLoop`. -/
def reconCursor (ws : List WordData) (tpc : ℚ) :
    List String → Nat → ℚ → Nat → ℚ
  | _, _, ct, 0 => ct
  | [], _, ct, _ + 1 => ct
  | tok :: rest, i, ct, k + 1 =>
    reconCursor ws tpc rest (i + 1) (nextCursor ws tpc i ct tok) k

/-! ## Paragraph Segmentation Engine
`TranscriptProcessor.extract_paragraphs`,
`_extract_from_paragraphs_structure`, `_create_paragraphs_from_words`,
`_create_paragraph_from_words` (`transcript_processor.py` lines 26-285). -/

/-- Line 84-93: build a `WordData` from a raw word dict of the provider
structure, with the source's `.get` defaults (`speaker` 0,
`speaker_confidence` 1.0, `punctuated_word` the raw word) and the running
`word_index` as `index`. -/
def buildWord (wi : Nat) (rw : RawWord) : WordData :=
  { word := rw.word, start := rw.start, endT := rw.endT, confidence := rw.confidence,
    speaker := rw.speaker.getD 0, speaker_confidence := rw.speaker_confidence.getD 1,
    punctuated_word := rw.punctuated_word.getD rw.word, index := some (Int.ofNat wi) }

/-- The words of one sentence, built in order with consecutive word indices
(the `for word_data in sentence["words"]` loop). -/
def buildWords (wi : Nat) : List RawWord → List WordData
  | [] => []
  | rw :: rest => buildWord wi rw :: buildWords (wi + 1) rest

/-- One step of the source's running minimum that starts at `float('inf')`:
`none` is the untouched `inf` state. -/
def infMinFold : Option ℚ → ℚ → Option ℚ
  | none, x => some x
  | some a, x => some (min a x)

/-- The running minimum of the words' `start` values, `none` when no word was
processed (the source's `!= float('inf')` test). -/
def minStartOpt (ws : List WordData) : Option ℚ :=
  (ws.map (·.start)).foldl infMinFold none

/-- `sent_{para_idx}_{sent_idx}`, the default sentence id (line 114). -/
def mkSentenceId (p s : Nat) : String :=
  "sent_" ++ toString p ++ "_" ++ toString s

/-- Lines 76-123: one sentence of the provider paragraph structure becomes a
`SentenceData`; returns the sentence and the advanced `word_index`.
`start` is the fold-min over word starts (0.0 when still `inf`), `endT` the
fold-max over word ends starting at 0.0, `speaker` the first word's speaker
(`sentence_speaker or 0`, which is 0 both for no words and for speaker 0). -/
def processSentence (p s wi : Nat) (rs : RawSentence) : SentenceData × Nat :=
  let ws := buildWords wi rs.words
  ({ id := rs.id.getD (mkSentenceId p s),
     text := rs.text,
     start := (minStartOpt ws).getD 0,
     endT := (ws.map (·.endT)).foldl max 0,
     words := ws,
     speaker := (ws.head?.map (·.speaker)).getD 0 },
   wi + rs.words.length)

/-- The `for sent_idx, sentence in enumerate(paragraph["sentences"])` loop. -/
def processSentences (p : Nat) : Nat → Nat → List RawSentence → List SentenceData × Nat
  | _, wi, [] => ([], wi)
  | s, wi, rs :: rest =>
    let (sd, wi') := processSentence p s wi rs
    let (sds, wi'') := processSentences p (s + 1) wi' rest
    (sd :: sds, wi'')

/-- `"".join`-style left fold used for the accumulated `paragraph_text`. -/
def pyConcat (l : List String) : String := l.foldl (· ++ ·) ""

/-- The number of words of `ws` carrying speaker `s`
(`speaker_counts[word.speaker]`). -/
def speakerCount (ws : List WordData) (s : Int) : Nat :=
  ws.countP (fun w => w.speaker == s)

/-- The distinct values of `l` in first-occurrence order — the key iteration
order of the Python `speaker_counts` dict (insertion-ordered). -/
def firstOccList (l : List Int) : List Int :=
  l.foldl (fun acc s => if s ∈ acc then acc else acc ++ [s]) []

/-- Python `max(keys, key=count)`: the first key, in iteration order,
attaining the maximal count (0 for an empty key list, unreachable in the
source). -/
def maxByCountFirst (keys : List Int) (count : Int → Nat) : Int :=
  match keys with
  | [] => 0
  | k :: rest => rest.foldl (fun best s => if count s > count best then s else best) k

/-- Lines 125-132: the paragraph's primary speaker — the mode of its words'
speakers, ties broken by first occurrence. `paragraph_speakers` is non-empty
exactly when a word was processed, so the `if paragraph_speakers:` test is
the emptiness test on the word list. -/
def primarySpeakerOf (pwords : List WordData) : Int :=
  if pwords.isEmpty then 0
  else maxByCountFirst (firstOccList (pwords.map (·.speaker))) (speakerCount pwords)

/-- Line 135: mean of the words' confidences (0.0 for zero words). -/
def avgConfidence (pwords : List WordData) : ℚ :=
  if 0 < pwords.length then (pwords.map (·.confidence)).sum / (pwords.length : ℚ) else 0

/-- Lines 66-149: one provider paragraph becomes a `ParagraphData`; returns
it and the advanced `word_index`. The paragraph's words are the
concatenation of its sentences' words; its text is the sentences' texts each
followed by one space, stripped at the end. -/
def processParagraph (p wi : Nat) (rp : RawParagraph) : ParagraphData × Nat :=
  let (sds, wi') := processSentences p 0 wi rp.sentences
  let pwords := (sds.map (·.words)).flatten
  let ptext := pyConcat (sds.map (fun sd => sd.text ++ " "))
  ({ id := "para_" ++ toString p,
     text := pyStrip ptext,
     start_time := (minStartOpt pwords).getD 0,
     end_time := (pwords.map (·.endT)).foldl max 0,
     speaker := primarySpeakerOf pwords,
     sentences := sds,
     words := pwords,
     confidence := avgConfidence pwords }, wi')

/-- The `for para_idx, paragraph in enumerate(...)` walk (lines 66-151). -/
def extractParasLoop : Nat → Nat → List RawParagraph → List ParagraphData
  | _, _, [] => []
  | p, wi, rp :: rest =>
    let (pd, wi') := processParagraph p wi rp
    pd :: extractParasLoop (p + 1) wi' rest

/-- `TranscriptProcessor._extract_from_paragraphs_structure` (lines 53-151). -/
def extractFromParagraphsStructure (ps : List RawParagraph) : List ParagraphData :=
  extractParasLoop 0 0 ps

/-- `TranscriptProcessor._create_paragraph_from_words` (lines 223-285). -/
def createParagraphFromWords (words : List WordData) (paragraph_index : Nat)
    (start_time : ℚ) : ParagraphData :=
  match words with
  | [] =>
    { id := "para_" ++ toString paragraph_index, text := "", start_time := start_time,
      end_time := start_time, speaker := 0, sentences := [], words := [], confidence := 0 }
  | _ =>
    let end_time := (words.getLastD default).endT
    let avg_confidence := (words.map (·.confidence)).sum / (words.length : ℚ)
    let primary_speaker :=
      maxByCountFirst (firstOccList (words.map (·.speaker))) (speakerCount words)
    let text := pyJoin " " (words.map (·.punctuated_word))
    let sentence : SentenceData :=
      { id := "sent_" ++ toString paragraph_index ++ "_0", text := text,
        start := start_time, endT := end_time, words := words, speaker := primary_speaker }
    { id := "para_" ++ toString paragraph_index, text := text, start_time := start_time,
      end_time := end_time, speaker := primary_speaker, sentences := [sentence],
      words := words, confidence := avg_confidence }

/-- Lines 177-191: the paragraph break test — speaker change (with a
non-empty buffer), a pause of more than 2 seconds after the buffer's last
word, or a buffer already holding 100 words. -/
def shouldBreakB (buf : List WordData) (curSpk : Int) (w : WordData) : Bool :=
  (w.speaker != curSpk && !buf.isEmpty) ||
  (!buf.isEmpty && decide (w.start - (buf.getLastD default).endT > 2)) ||
  buf.length ≥ 100

/-- The `for word in alternative.words` loop of
`_create_paragraphs_from_words` (lines 172-219), with the loop state
(accumulated paragraphs, current buffer, current speaker, paragraph start
time, word index) passed explicitly; the final buffer is flushed
unconditionally. The source also resets speaker/start when the buffer has
exactly one word after an append — that happens exactly for the very first
word or right after a break, mirrored here. -/
def fallbackLoop : List WordData → List ParagraphData → List WordData → Int → ℚ → Nat →
    List ParagraphData
  | [], paras, buf, _, pstart, _ =>
    if buf.isEmpty then paras
    else paras ++ [createParagraphFromWords buf paras.length pstart]
  | w :: rest, paras, buf, curSpk, pstart, wi =>
    let w' := { w with index := some (Int.ofNat wi) }
    if shouldBreakB buf curSpk w' && !buf.isEmpty then
      fallbackLoop rest (paras ++ [createParagraphFromWords buf paras.length pstart])
        [w'] w'.speaker w'.start (wi + 1)
    else
      let buf' := buf ++ [w']
      if buf'.length = 1 then fallbackLoop rest paras buf' w'.speaker w'.start (wi + 1)
      else fallbackLoop rest paras buf' curSpk pstart (wi + 1)

/-- `TranscriptProcessor._create_paragraphs_from_words` (lines 153-221). -/
def createParagraphsFromWords (alternative : DeepgramAlternative) : List ParagraphData :=
  match alternative.words with
  | [] => []
  | w0 :: _ => fallbackLoop alternative.words [] [] w0.speaker w0.start 0

/-- `TranscriptProcessor.extract_paragraphs` (lines 26-51): empty channels or
alternatives give an empty list; a provider paragraph structure selects the
native path, otherwise the fallback path groups the flat word list. -/
def extract_paragraphs (response : DeepgramResponse) : List ParagraphData :=
  match response.results.channels with
  | [] => []
  | channel :: _ =>
    match channel.alternatives with
    | [] => []
    | alternative :: _ =>
      match alternative.paragraphs with
      | some ps => extractFromParagraphsStructure ps
      | none => createParagraphsFromWords alternative

/-! ## Response Mutator
`TranscriptProcessor._update_response_with_new_words`
(`transcript_processor.py` lines 403-453). -/

/-- Lines 443-445: reassign `index` sequentially over a word list
(`for i, word in enumerate(new_word_list): word.index = i`). -/
def setIndices : Nat → List WordData → List WordData
  | _, [] => []
  | i, w :: ws => { w with index := some (Int.ofNat i) } :: setIndices (i + 1) ws

/-- Python `l[:k]` for an `int` bound: a negative bound counts from the end,
clamped at 0. -/
def pyTakeTo (l : List WordData) (k : Int) : List WordData :=
  if k < 0 then l.take (l.length - min l.length (-k).toNat) else l.take k.toNat

/-- Python `l[k:]` for an `int` bound: a negative bound counts from the end,
clamped at 0. -/
def pyDropFrom (l : List WordData) (k : Int) : List WordData :=
  if k < 0 then l.drop (l.length - min l.length (-k).toNat) else l.drop k.toNat

/-- `TranscriptProcessor._update_response_with_new_words` (lines 403-453),
on the deep copy the source makes (the model is pure, so the copy is the
returned value). `original_word_indices` is modelled by `filterMap` over the
optional `index` fields: the source presumes every target word carries an
index (`min`/`max` over a `None` would raise). With a non-empty index list
the span `[min, max+1)` of the flat word list is replaced by `new_words` and
all indices are reassigned 0..N-1; in every case the flat transcript is
rebuilt as the space-join of the (current) words' punctuated forms. The
`new_text` parameter is unused in the source body as well. -/
def updateResponseWithNewWords (response : DeepgramResponse)
    (target_paragraph : ParagraphData) (new_words : List WordData)
    (new_text : String) : DeepgramResponse :=
  match response.results.channels with
  | [] => response
  | channel :: restChannels =>
    match channel.alternatives with
    | [] => response
    | alternative :: restAlts =>
      let original_word_indices := target_paragraph.words.filterMap (·.index)
      let alternative1 :=
        match original_word_indices with
        | [] => alternative
        | i0 :: irest =>
          let start_idx := irest.foldl min i0
          let end_idx := irest.foldl max i0 + 1
          let new_word_list :=
            pyTakeTo alternative.words start_idx ++ new_words ++
              pyDropFrom alternative.words end_idx
          { alternative with words := setIndices 0 new_word_list }
      let alternative2 :=
        { alternative1 with
          transcript := pyJoin " " (alternative1.words.map (·.punctuated_word)) }
      { response with
        results :=
          { channels := { channel with alternatives := alternative2 :: restAlts }
              :: restChannels } }

/-! ## Time-Range Query Engine
`TranscriptProcessor.find_word_at_time`, `get_words_in_time_range`
(`transcript_processor.py` lines 455-519) and the range check of the
`get_words_in_range` router (`transcript_versions.py` lines 606-611). -/

/-- The loop body of `bisect.bisect_left`: `while lo < hi: mid = (lo+hi)//2;
if a[mid] < x: lo = mid+1 else: hi = mid`. -/
def bisectLoop (a : List ℚ) (x : ℚ) (lo hi : Nat) : Nat :=
  if _h : lo < hi then
    let mid := (lo + hi) / 2
    if a.getD mid 0 < x then bisectLoop a x (mid + 1) hi
    else bisectLoop a x lo mid
  else lo
termination_by hi - lo
decreasing_by
  · have h1 : lo ≤ (lo + hi) / 2 := Nat.le_div_iff_mul_le (by norm_num) |>.mpr (by omega)
    omega
  · have h2 : (lo + hi) / 2 < hi := Nat.div_lt_iff_lt_mul (by norm_num) |>.mpr (by omega)
    omega

/-- Python `bisect.bisect_left(a, x)` (the source imports it at line 11). -/
def bisect_left (a : List ℚ) (x : ℚ) : Nat := bisectLoop a x 0 a.length

/-- One candidate check of `find_word_at_time` (lines 483-487): a candidate
index is used only when `0 <= check_idx < len(words)`, and its word is
returned when its `[start, end]` interval contains the queried time. -/
def checkCandidate (words : List WordData) (t : ℚ) (ci : Int) : Option WordData :=
  if 0 ≤ ci ∧ ci < words.length then
    match words.get? ci.toNat with
    | some w => if w.start ≤ t ∧ t ≤ w.endT then some w else none
    | none => none
  else none

/-- `TranscriptProcessor.find_word_at_time` (lines 455-489): binary-search
the start values for the insertion point of `time`, then check the preceding
index before the located index (`for check_idx in [idx - 1, idx]`). -/
def find_word_at_time (response : DeepgramResponse) (time : ℚ) : Option WordData :=
  match response.results.channels with
  | [] => none
  | channel :: _ =>
    match channel.alternatives with
    | [] => none
    | alternative :: _ =>
      let words := alternative.words
      let word_starts := words.map (·.start)
      let idx := bisect_left word_starts time
      match checkCandidate words time ((idx : Int) - 1) with
      | some w => some w
      | none => checkCandidate words time (idx : Int)

/-- `TranscriptProcessor.get_words_in_time_range` (lines 491-519): linear
scan keeping every word with `word.start <= end_time and word.end >=
start_time`. -/
def get_words_in_time_range (response : DeepgramResponse)
    (start_time end_time : ℚ) : List WordData :=
  match response.results.channels with
  | [] => []
  | channel :: _ =>
    match channel.alternatives with
    | [] => []
    | alternative :: _ =>
      alternative.words.filter (fun w => decide (w.start ≤ end_time ∧ start_time ≤ w.endT))

/-- The `get_words_in_range` router endpoint (`transcript_versions.py` lines
606-632), reduced to its pure content: an HTTP 400 "Start time must be less
than end time" error when `start_time >= end_time`, otherwise the core range
query on the loaded document (the version-loading I/O is elided; the loaded
document is the `response` argument). -/
def getWordsInRangeChecked (response : DeepgramResponse)
    (start_time end_time : ℚ) : Except String (List WordData) :=
  if start_time ≥ end_time then .error "Start time must be less than end time"
  else .ok (get_words_in_time_range response start_time end_time)

/-! ## Version Store
`DeepgramVersionManager` (`version_manager.py`), for a single audio source
(one source key), with the file system modelled as explicit state: the
optional metadata record and the set of version numbers whose artifact file
`v{n}.json` exists. Artifact payloads and wall-clock timestamps are not
read by any claim and are elided. -/

/-- One entry of `metadata["versions"]` (lines 173-178). -/
structure VersionEntry where
  version : Nat
  filename : String
  changes : String
deriving DecidableEq, Repr

/-- The per-source metadata record `{versions, next_version}` (lines 88-93). -/
structure VersionMeta where
  versions : List VersionEntry
  next_version : Nat
deriving DecidableEq, Repr

/-- The observable file-system state for one source key. -/
structure VersionStoreState where
  meta : Option VersionMeta
  files : List Nat
deriving DecidableEq, Repr

/-- `_load_metadata` (lines 76-104): a missing metadata file yields the
fresh record with `next_version = 0` (the corruption branch behaves the
same and is subsumed). -/
def loadMetadata (st : VersionStoreState) : VersionMeta :=
  st.meta.getD ⟨[], 0⟩

/-- `v{version}.json` (line 134). -/
def versionFilename (n : Nat) : String := "v" ++ toString n ++ ".json"

/-- `DeepgramVersionManager.save_version` (lines 136-187): allocate
`version_num = metadata["next_version"]`, write the artifact file, append
the metadata entry, set `next_version = version_num + 1`, persist the
metadata; returns the new state and the allocated version number. -/
def save_version (st : VersionStoreState) (changes : String) :
    VersionStoreState × Nat :=
  let metadata := loadMetadata st
  let version_num := metadata.next_version
  ({ meta := some
      { versions := metadata.versions ++
          [{ version := version_num, filename := versionFilename version_num,
             changes := changes }],
        next_version := version_num + 1 },
     files := st.files ++ [version_num] }, version_num)

/-- `DeepgramVersionManager.delete_version` (lines 253-284): `False` when
the artifact file does not exist; otherwise remove the file, drop the
metadata entry, keep `next_version` untouched. -/
def delete_version (st : VersionStoreState) (version : Nat) :
    VersionStoreState × Bool :=
  if version ∈ st.files then
    let metadata := loadMetadata st
    ({ meta := some
        { versions := metadata.versions.filter (fun v => v.version != version),
          next_version := metadata.next_version },
       files := st.files.erase version }, true)
  else (st, false)

/-- A call sequence against one source key. -/
inductive VersionOp where
  | save (changes : String)
  | delete (version : Nat)
deriving DecidableEq, Repr

/-- Run a call sequence from a state: returns the final state, the version
numbers allocated by the `save` calls in order, and a flag that stays `true`
exactly when no `save` ever targeted an artifact file that already existed
(i.e. no overwrite). -/
def runOps : VersionStoreState → List VersionOp → VersionStoreState × List Nat × Bool
  | st, [] => (st, [], true)
  | st, VersionOp.save changes :: rest =>
    let fresh := decide ((loadMetadata st).next_version ∉ st.files)
    let (st', n) := save_version st changes
    let (st'', allocs, ok) := runOps st' rest
    (st'', n :: allocs, fresh && ok)
  | st, VersionOp.delete v :: rest =>
    let (st', _) := delete_version st v
    runOps st' rest

/-- The store for a fresh source key: no metadata file, no artifact files. -/
def initialStoreState : VersionStoreState := ⟨none, []⟩

/-! ## Concrete documents used by witnesses, counterexamples and the spec's
worked query examples. -/

/-- A fixed metadata record for the concrete example documents. -/
def exMetadata : DeepgramMetadata := ⟨"req", none, "now", 10, 1, ["m"], []⟩

/-- A document with one channel holding one alternative. -/
def mkSimpleResponse (alt : DeepgramAlternative) : DeepgramResponse :=
  ⟨exMetadata, ⟨[⟨[alt]⟩]⟩⟩

/-- Fallback-path example: two words with a speaker change and a > 2 s pause
(the spec's segmentation scenario). -/
def c2alt : DeepgramAlternative :=
  ⟨"hi bob", [⟨"hi", 0, 1, 1, 0, 1, "hi", none⟩, ⟨"bob", 4, 5, 1, 1, 1, "bob", none⟩], none⟩

/-- Native-path example: the provider paragraph structure lists one word
while the flat `words` list is empty. -/
def c2nativeAlt : DeepgramAlternative :=
  ⟨"", [], some [⟨[⟨none, "hi", [⟨"hi", 0, 1, 1, none, none, none⟩]⟩]⟩]⟩

/-- The spec's query example document: words with (start, end) pairs
(0,1), (1,2), (3,4). -/
def c7alt : DeepgramAlternative :=
  ⟨"w0 w1 w2",
   [⟨"w0", 0, 1, 1, 0, 1, "w0", some 0⟩, ⟨"w1", 1, 2, 1, 0, 1, "w1", some 1⟩,
    ⟨"w2", 3, 4, 1, 0, 1, "w2", some 2⟩], none⟩

/-- The first channel's first alternative of a document (the only one the
processor reads), with an empty default. -/
def firstAlternative (r : DeepgramResponse) : DeepgramAlternative :=
  match r.results.channels with
  | [] => ⟨"", [], none⟩
  | ch :: _ =>
    match ch.alternatives with
    | [] => ⟨"", [], none⟩
    | alt :: _ => alt

/-- Mutator example: a document whose stored transcript string (`"XYZ"`)
differs from the space-join of its words' punctuated forms (`"hello"`). -/
def c6alt : DeepgramAlternative :=
  ⟨"XYZ", [⟨"hello", 0, 1, 1, 0, 1, "hello", some 0⟩], none⟩

/-- A paragraph with an empty word list. -/
def c6para : ParagraphData := ⟨"para_0", "", 0, 0, 0, [], [], 0⟩

/-- Mutator example: three indexed words. -/
def c5alt : DeepgramAlternative :=
  ⟨"a b c",
   [⟨"a", 0, 1, 1, 0, 1, "a", some 0⟩, ⟨"b", 1, 2, 1, 0, 1, "b", some 1⟩,
    ⟨"c", 2, 3, 1, 0, 1, "c", some 2⟩], none⟩

/-- The paragraph owning the middle word (globalIndex span [1, 2)). -/
def c5para : ParagraphData :=
  ⟨"para_0", "b", 1, 2, 0, [], [⟨"b", 1, 2, 1, 0, 1, "b", some 1⟩], 1⟩

/-- A two-word replacement for `c5para`. -/
def c5new : List WordData :=
  [⟨"X", 1, 2, 1, 0, 1, "X", some 0⟩, ⟨"Y", 2, 3, 1, 0, 1, "Y", some 1⟩]

/-- The word list the mutator produces for a flat list `aws`, replacement
`new_words` and target index list `i0 :: irest` (all indices defined and in
range): the span `[min, max+1)` replaced, all indices reassigned — the
specification-side form used to state the mutator's characterization. -/
def splicedWordList (aws new_words : List WordData) (i0 : Int) (irest : List Int) :
    List WordData :=
  setIndices 0 (aws.take (irest.foldl min i0).toNat ++ new_words ++
    aws.drop ((irest.foldl max i0).toNat + 1))

/-- C10: with an empty original word list the reconciliation returns the
empty word list for every pair of texts — even texts with equal trimmed
forms, since the emptiness check precedes the no-op fast path. -/
theorem C10_empty_words (original_text new_text : String) :
    calculate_timing_adjustments original_text new_text [] = [] := by
  simp [calculate_timing_adjustments]

/-- C3: with a non-empty original word list, a new text whose trimmed form
equals the trimmed original text makes the reconciliation return the
original word list unchanged (the no-op fast path). -/
theorem C3_noop_fast_path (original_text new_text : String)
    (original_words : List WordData)
    (hne : original_words ≠ [])
    (heq : pyStrip original_text = pyStrip new_text) :
    calculate_timing_adjustments original_text new_text original_words = original_words := by
  simp [calculate_timing_adjustments, hne, heq]

/-- C3 witness: the theorem at a concrete paragraph (text unchanged up to
trailing whitespace). -/
theorem C3_noop_fast_path_witness :
    ([⟨"hi", 0, 1, 1, 0, 1, "hi", some 0⟩] : List WordData) ≠ [] ∧
    pyStrip "hi there" = pyStrip "hi there " ∧
    calculate_timing_adjustments "hi there" "hi there "
      [⟨"hi", 0, 1, 1, 0, 1, "hi", some 0⟩] = [⟨"hi", 0, 1, 1, 0, 1, "hi", some 0⟩] := by
  refine ⟨by decide, by decide, C3_noop_fast_path _ _ _ (by decide) (by decide)⟩

theorem posMatchB_eq_true_iff (ws : List WordData) (i : Nat) (tok : String) :
    posMatchB ws i tok = true ↔
      ∃ mw, ws.get? i = some mw ∧ lowerStr mw.word = lowerStr tok := by
  unfold posMatchB
  cases h : ws.get? i <;> simp [h]

theorem stepWord_of_match {ws : List WordData} {i : Nat} {mw : WordData} {tok : String}
    (tpc : ℚ) (ct : ℚ) (hw : ws.get? i = some mw) (hl : lowerStr mw.word = lowerStr tok) :
    stepWord ws tpc i ct tok = posReuse mw tok i := by
  unfold stepWord
  rw [hw]
  show (if lowerStr mw.word = lowerStr tok then posReuse mw tok i
    else posSynth ws tpc tok i ct) = posReuse mw tok i
  exact if_pos hl

theorem stepWord_of_not_match {ws : List WordData} {i : Nat} {tok : String}
    (tpc : ℚ) (ct : ℚ) (h : posMatchB ws i tok = false) :
    stepWord ws tpc i ct tok = posSynth ws tpc tok i ct := by
  unfold stepWord
  cases hw : ws.get? i with
  | none => rfl
  | some mw =>
    unfold posMatchB at h
    rw [hw] at h
    simp only [beq_eq_false_iff_ne, ne_eq] at h
    simp [h]

theorem nextCursor_of_match {ws : List WordData} {i : Nat} {mw : WordData} {tok : String}
    (tpc : ℚ) (ct : ℚ) (hw : ws.get? i = some mw) (hl : lowerStr mw.word = lowerStr tok) :
    nextCursor ws tpc i ct tok = mw.endT := by
  unfold nextCursor
  rw [hw]
  show (if lowerStr mw.word = lowerStr tok then mw.endT
    else ct + (tok.length : ℚ) * tpc + 0.1) = mw.endT
  exact if_pos hl

theorem nextCursor_of_not_match {ws : List WordData} {i : Nat} {tok : String}
    (tpc : ℚ) (ct : ℚ) (h : posMatchB ws i tok = false) :
    nextCursor ws tpc i ct tok = ct + (tok.length : ℚ) * tpc + 0.1 := by
  unfold nextCursor
  cases hw : ws.get? i with
  | none => rfl
  | some mw =>
    unfold posMatchB at h
    rw [hw] at h
    simp only [beq_eq_false_iff_ne, ne_eq] at h
    simp [h]

theorem adjustLoop_allSynth (ws : List WordData) (tpc : ℚ) (htpc : 0 ≤ tpc) :
    ∀ (ts : List String) (i : Nat) (ct : ℚ),
      (∀ k tok, ts.get? k = some tok → posMatchB ws (i + k) tok = false) →
      List.Chain' (fun u v => u.start ≤ v.start) (adjustLoop ws tpc i ct ts) ∧
      ∀ y ∈ (adjustLoop ws tpc i ct ts).head?, ct ≤ y.start := by
  intro ts
  induction ts with
  | nil => intro i ct _; simp [adjustLoop]
  | cons tok rest ih =>
    intro i ct hall
    have h0 : posMatchB ws i tok = false := by
      have h := hall 0 tok (by simp)
      simpa using h
    have hrest : ∀ k tok', rest.get? k = some tok' → posMatchB ws (i + 1 + k) tok' = false := by
      intro k tok' hk
      have h := hall (k + 1) tok' (by simpa using hk)
      have harith : i + (k + 1) = i + 1 + k := by omega
      rwa [harith] at h
    have ihr := ih (i + 1) (ct + (tok.length : ℚ) * tpc + 0.1) hrest
    have hd : 0 ≤ (tok.length : ℚ) * tpc := mul_nonneg (Nat.cast_nonneg _) htpc
    have h01 : (0 : ℚ) < 0.1 := by norm_num
    rw [adjustLoop, stepWord_of_not_match tpc ct h0, nextCursor_of_not_match tpc ct h0]
    constructor
    · rw [List.chain'_cons']
      refine ⟨?_, ihr.1⟩
      intro y hy
      have hle := ihr.2 y hy
      show (posSynth ws tpc tok i ct).start ≤ y.start
      simp only [posSynth]
      linarith
    · intro y hy
      simp only [List.head?_cons, Option.mem_def, Option.some.injEq] at hy
      subst hy
      simp [posSynth]

theorem adjustLoop_prefixMatch (ws : List WordData) (tpc : ℚ)
    (hsorted : List.Pairwise (fun u v => u.start ≤ v.start) ws)
    (hse : ∀ w ∈ ws, w.start ≤ w.endT) (htpc : 0 ≤ tpc) :
    ∀ (ts : List String) (i : Nat) (ct : ℚ),
      (∀ k tok, ts.get? k = some tok → posMatchB ws (i + k) tok = false →
        ∀ k' tok', k ≤ k' → ts.get? k' = some tok' → posMatchB ws (i + k') tok' = false) →
      List.Chain' (fun u v => u.start ≤ v.start) (adjustLoop ws tpc i ct ts) ∧
      ∀ y ∈ (adjustLoop ws tpc i ct ts).head?,
        ct ≤ y.start ∨ ∃ mw, ws.get? i = some mw ∧ y.start = mw.start := by
  intro ts
  induction ts with
  | nil => intro i ct _; simp [adjustLoop]
  | cons tok rest ih =>
    intro i ct hpre
    cases hm : posMatchB ws i tok with
    | false =>
      have hall : ∀ k tok', (tok :: rest).get? k = some tok' →
          posMatchB ws (i + k) tok' = false := by
        intro k tok' hk
        refine hpre 0 tok (by simp) (by simpa using hm) k tok' (Nat.zero_le _) hk
      have h := adjustLoop_allSynth ws tpc htpc (tok :: rest) i ct hall
      refine ⟨h.1, fun y hy => Or.inl (h.2 y hy)⟩
    | true =>
      obtain ⟨mw, hw, hl⟩ := (posMatchB_eq_true_iff ws i tok).mp hm
      have hmem : mw ∈ ws := by
        obtain ⟨hlt, hget⟩ := List.get?_eq_some.mp hw
        exact hget ▸ List.get_mem ws _ _
      have hrest : ∀ k tok', rest.get? k = some tok' → posMatchB ws (i + 1 + k) tok' = false →
          ∀ k' tok'', k ≤ k' → rest.get? k' = some tok'' →
            posMatchB ws (i + 1 + k') tok'' = false := by
        intro k tok' hk hnm k' tok'' hle hk'
        have h1 : (tok :: rest).get? (k + 1) = some tok' := by simpa using hk
        have h2 : posMatchB ws (i + (k + 1)) tok' = false := by
          have harith : i + (k + 1) = i + 1 + k := by omega
          rwa [harith]
        have h3 : (tok :: rest).get? (k' + 1) = some tok'' := by simpa using hk'
        have h4 := hpre (k + 1) tok' h1 h2 (k' + 1) tok'' (by omega) h3
        have harith : i + (k' + 1) = i + 1 + k' := by omega
        rwa [harith] at h4
      have ihr := ih (i + 1) mw.endT hrest
      rw [adjustLoop, stepWord_of_match tpc ct hw hl, nextCursor_of_match tpc ct hw hl]
      constructor
      · rw [List.chain'_cons']
        refine ⟨?_, ihr.1⟩
        intro y hy
        have hse1 : mw.start ≤ mw.endT := hse mw hmem
        show (posReuse mw tok i).start ≤ y.start
        rcases ihr.2 y hy with hct | ⟨mw', hw', hst⟩
        · simp only [posReuse]
          linarith
        · simp only [posReuse, hst]
          obtain ⟨hlt, hget⟩ := List.get?_eq_some.mp hw
          obtain ⟨hlt', hget'⟩ := List.get?_eq_some.mp hw'
          have := List.pairwise_iff_get.mp hsorted ⟨i, hlt⟩ ⟨i + 1, hlt'⟩ (by simp)
          rw [hget, hget'] at this
          exact this
      · intro y hy
        simp only [List.head?_cons, Option.mem_def, Option.some.injEq] at hy
        subst hy
        exact Or.inr ⟨mw, hw, by simp [posReuse]⟩

theorem getLastD_mem_of_ne_nil {ws : List WordData} (d : WordData) (hne : ws ≠ []) :
    ws.getLastD d ∈ ws := by
  rw [List.getLastD_eq_getLast?, List.getLast?_eq_getLast ws hne]
  simp [List.getLast_mem]

theorem headD_start_le_getLastD_start {ws : List WordData}
    (hs : List.Pairwise (fun u v => u.start ≤ v.start) ws) (hne : ws ≠ []) :
    (ws.headD default).start ≤ (ws.getLastD default).start := by
  match ws, hne with
  | a :: t, _ =>
    rw [List.headD_cons]
    rcases t with _ | ⟨b, t'⟩
    · simp [List.getLastD_eq_getLast?]
    · have hlast : (a :: b :: t').getLastD default = (b :: t').getLastD default := by
        rw [List.getLastD_eq_getLast?, List.getLastD_eq_getLast?, List.getLast?_cons_cons]
      rw [hlast]
      have hmem' : (b :: t').getLastD default ∈ b :: t' :=
        getLastD_mem_of_ne_nil _ (by simp)
      exact (List.pairwise_cons.mp hs).1 _ hmem'

/-- C1 (amended): for a non-empty original word list whose words have
non-decreasing `start` values and `start ≤ end`, and an edited text whose
positionally matched token positions form a prefix of the new token
positions (once a position fails the positional match, every later position
fails too), the reconciliation output has non-decreasing `start` across
consecutive words. The unamended claim — for every original word list and
every edited text — fails because a positionally matched word reuses its
original `start` verbatim even after synthesized words have advanced the
cursor past it (see the counterexample). -/
theorem C1_reconcile_monotonic (original_text new_text : String) (ws : List WordData)
    (hne : ws ≠ [])
    (hsorted : List.Pairwise (fun u v => u.start ≤ v.start) ws)
    (hse : ∀ w ∈ ws, w.start ≤ w.endT)
    (hpre : ∀ k tok, (pySplit new_text).get? k = some tok → posMatchB ws k tok = false →
      ∀ k' tok', k ≤ k' → (pySplit new_text).get? k' = some tok' →
        posMatchB ws k' tok' = false) :
    List.Chain' (fun u v => u.start ≤ v.start)
      (calculate_timing_adjustments original_text new_text ws) := by
  by_cases heq : pyStrip original_text = pyStrip new_text
  · simp only [calculate_timing_adjustments, if_neg hne, if_pos heq]
    exact hsorted.chain'
  · simp only [calculate_timing_adjustments, if_neg hne, if_neg heq]
    have hlmem : ws.getLastD default ∈ ws := getLastD_mem_of_ne_nil _ hne
    have htpc : (0:ℚ) ≤ timePerChar original_text ws := by
      unfold timePerChar
      by_cases hcc : 0 < original_text.length
      · simp only [if_pos hcc]
        apply div_nonneg _ (Nat.cast_nonneg _)
        have h1 := headD_start_le_getLastD_start hsorted hne
        have h2 := hse _ hlmem
        linarith
      · simp only [if_neg hcc]
        exact le_rfl
    refine (adjustLoop_prefixMatch ws _ hsorted hse htpc (pySplit new_text) 0
      ((ws.headD default).start) ?_).1
    intro k tok h1 h2 k' tok' hle h3
    have h2' : posMatchB ws k tok = false := by simpa using h2
    have := hpre k tok h1 h2' k' tok' hle h3
    simpa using this

/-- C1 witness: the amended theorem applied to a one-word paragraph
(original text `"a"`, edited text `"b"`). -/
theorem C1_reconcile_monotonic_witness :
    (([⟨"a", 0, 1, 1, 0, 1, "a", some 0⟩] : List WordData) ≠ []) ∧
    List.Pairwise (fun u v : WordData => u.start ≤ v.start)
      [⟨"a", 0, 1, 1, 0, 1, "a", some 0⟩] ∧
    (∀ w ∈ ([⟨"a", 0, 1, 1, 0, 1, "a", some 0⟩] : List WordData), w.start ≤ w.endT) ∧
    List.Chain' (fun u v => u.start ≤ v.start)
      (calculate_timing_adjustments "a" "b" [⟨"a", 0, 1, 1, 0, 1, "a", some 0⟩]) := by
  have htok : pySplit "b" = ["b"] := by decide
  have h1 : ([⟨"a", 0, 1, 1, 0, 1, "a", some 0⟩] : List WordData) ≠ [] := by simp
  have h2 : List.Pairwise (fun u v : WordData => u.start ≤ v.start)
      [⟨"a", 0, 1, 1, 0, 1, "a", some 0⟩] := by simp
  have h3 : ∀ w ∈ ([⟨"a", 0, 1, 1, 0, 1, "a", some 0⟩] : List WordData),
      w.start ≤ w.endT := by
    intro w hw
    simp only [List.mem_singleton] at hw
    subst hw
    norm_num
  have h4 : ∀ k tok, (pySplit "b").get? k = some tok → posMatchB
      [⟨"a", 0, 1, 1, 0, 1, "a", some 0⟩] k tok = false →
      ∀ k' tok', k ≤ k' → (pySplit "b").get? k' = some tok' →
        posMatchB [⟨"a", 0, 1, 1, 0, 1, "a", some 0⟩] k' tok' = false := by
    intro k tok hk hnm k' tok' hle hk'
    rw [htok] at hk'
    match k' with
    | 0 =>
      simp only [List.get?] at hk'
      obtain rfl : tok' = "b" := by simpa using hk'.symm
      decide
    | k'' + 1 => simp [List.get?] at hk'
  exact ⟨h1, h2, h3, C1_reconcile_monotonic "a" "b" _ h1 h2 h3 h4⟩

/-- C1 counterexample: a well-formed four-word paragraph (original text
`"a bb cc dd"`, words sorted with `start ≤ end`) edited to
`"a XXXXXXXXXXXX YY dd"`. The two synthesized middle tokens advance the
cursor to 13.1, then the positionally matched final token `"dd"` reuses its
original `start` of 3, so the output's `start` values are not
non-decreasing. -/
theorem C1_counterexample :
    ¬ List.Chain' (fun u v => u.start ≤ v.start)
      (calculate_timing_adjustments "a bb cc dd" "a XXXXXXXXXXXX YY dd"
        [⟨"a", 0, 1, 1, 0, 1, "a", some 0⟩, ⟨"bb", 1, 2, 1, 0, 1, "bb", some 1⟩,
         ⟨"cc", 2, 3, 1, 0, 1, "cc", some 2⟩, ⟨"dd", 3, 10, 1, 0, 1, "dd", some 3⟩]) := by
  have htok : pySplit "a XXXXXXXXXXXX YY dd" = ["a", "XXXXXXXXXXXX", "YY", "dd"] := by
    decide
  have hstrip : ¬ (pyStrip "a bb cc dd" = pyStrip "a XXXXXXXXXXXX YY dd") := by decide
  have hne : ([⟨"a", 0, 1, 1, 0, 1, "a", some 0⟩, ⟨"bb", 1, 2, 1, 0, 1, "bb", some 1⟩,
      ⟨"cc", 2, 3, 1, 0, 1, "cc", some 2⟩,
      ⟨"dd", 3, 10, 1, 0, 1, "dd", some 3⟩] : List WordData) ≠ [] := by simp
  intro hchain
  have hm1 : ¬ (lowerStr "bb" = lowerStr "XXXXXXXXXXXX") := by decide
  have hm2 : ¬ (lowerStr "cc" = lowerStr "YY") := by decide
  have hlen10 : ("a bb cc dd" : String).length = 10 := by decide
  have hlen12 : ("XXXXXXXXXXXX" : String).length = 12 := by decide
  have hlen2 : ("YY" : String).length = 2 := by decide
  simp only [calculate_timing_adjustments, if_neg hne, if_neg hstrip, htok] at hchain
  norm_num [adjustLoop, stepWord, nextCursor, posSynth, posReuse, timePerChar, List.get?,
    List.headD, List.getLastD, List.chain'_cons, hm1, hm2, hlen10, hlen12,
    hlen2] at hchain

theorem adjustLoop_get? (ws : List WordData) (tpc : ℚ) :
    ∀ (ts : List String) (i : Nat) (ct : ℚ) (k : Nat),
      (adjustLoop ws tpc i ct ts).get? k =
        (ts.get? k).map (fun tok =>
          stepWord ws tpc (i + k) (reconCursor ws tpc ts i ct k) tok) := by
  intro ts
  induction ts with
  | nil => intro i ct k; simp [adjustLoop]
  | cons tok rest ih =>
    intro i ct k
    match k with
    | 0 => simp [adjustLoop, reconCursor]
    | k + 1 =>
      show (adjustLoop ws tpc i ct (tok :: rest)).get? (k + 1) = _
      rw [adjustLoop]
      simp only [List.get?]
      rw [ih (i + 1) (nextCursor ws tpc i ct tok) k]
      have harith : i + 1 + k = i + (k + 1) := by omega
      rw [harith]
      rfl

/-- C4 (amended): during reconciliation of an edited paragraph (non-empty
original word list, trimmed texts differing), the output word at every
position `k` of the new token list is: the original **word** at position `k`
with its `start`/`end`/`confidence`/`speaker`/`speaker_confidence` reused
verbatim and only the display text replaced, when `k` is within range of the
original **word list** and that word's recognized text equals the token
case-insensitively (`stepWord`/`posReuse`); otherwise a synthesized word
with `start = currentTime`, `end = currentTime + len(token) * timePerChar`,
confidence 0.8, the first original word's speaker, speaker confidence 0.8
(`posSynth`), the cursor `currentTime` advancing to the matched word's `end`
on a match and to `end + 0.1` on a synthesis (`reconCursor`). The unamended
claim matches against the tokens of the whitespace-split original *text*;
the code matches against the original *word list* (see the counterexample). -/
theorem C4_positional_alignment (original_text new_text : String) (ws : List WordData)
    (hne : ws ≠ []) (hdiff : ¬ (pyStrip original_text = pyStrip new_text)) (k : Nat) :
    (calculate_timing_adjustments original_text new_text ws).get? k =
      ((pySplit new_text).get? k).map (fun tok =>
        stepWord ws (timePerChar original_text ws) k
          (reconCursor ws (timePerChar original_text ws) (pySplit new_text) 0
            ((ws.headD default).start) k) tok) := by
  simp only [calculate_timing_adjustments, if_neg hne, if_neg hdiff]
  rw [adjustLoop_get?]
  simp only [Nat.zero_add]

/-- C4 witness: the amended characterization applied at position 0 of a
concrete edit (original `"a"`, words `["a"]`, new text `"b c"`). -/
theorem C4_positional_alignment_witness :
    (([⟨"a", 0, 1, 1, 0, 1, "a", some 0⟩] : List WordData) ≠ []) ∧
    ¬ (pyStrip "a" = pyStrip "b c") ∧
    (calculate_timing_adjustments "a" "b c" [⟨"a", 0, 1, 1, 0, 1, "a", some 0⟩]).get? 0 =
      ((pySplit "b c").get? 0).map (fun tok =>
        stepWord [⟨"a", 0, 1, 1, 0, 1, "a", some 0⟩]
          (timePerChar "a" [⟨"a", 0, 1, 1, 0, 1, "a", some 0⟩]) 0
          (reconCursor [⟨"a", 0, 1, 1, 0, 1, "a", some 0⟩]
            (timePerChar "a" [⟨"a", 0, 1, 1, 0, 1, "a", some 0⟩]) (pySplit "b c") 0
            (([⟨"a", 0, 1, 1, 0, 1, "a", some 0⟩] : List WordData).headD default).start 0)
          tok) := by
  have h1 : ([⟨"a", 0, 1, 1, 0, 1, "a", some 0⟩] : List WordData) ≠ [] := by simp
  have h2 : ¬ (pyStrip "a" = pyStrip "b c") := by decide
  exact ⟨h1, h2, C4_positional_alignment "a" "b c" _ h1 h2 0⟩

/-- C4 counterexample to the unamended claim: original text `"xx yy"` whose
whitespace-split token at position 0 (`"xx"`) equals the new text's token 0
(`"xx"`) case-insensitively, yet the original *word* at position 0 has
recognized text `"hi"`, so the code synthesizes (end 4/5, confidence 4/5)
instead of reusing the original word's end 1 and confidence 9/10 as the
claim requires. -/
theorem C4_counterexample :
    pySplit "xx yy" = ["xx", "yy"] ∧
    pySplit "xx zz" = ["xx", "zz"] ∧
    lowerStr "xx" = lowerStr "xx" ∧
    (calculate_timing_adjustments "xx yy" "xx zz"
      [⟨"hi", 0, 1, 9/10, 0, 1, "hi", some 0⟩, ⟨"ho", 1, 2, 9/10, 0, 1, "ho", some 1⟩]).get? 0 =
      some ⟨"xx", 0, 4/5, 4/5, 0, 4/5, "xx", some 0⟩ ∧
    ((4 : ℚ)/5 ≠ 1 ∧ (4 : ℚ)/5 ≠ 9/10) := by
  have htok : pySplit "xx zz" = ["xx", "zz"] := by decide
  have hstrip : ¬ (pyStrip "xx yy" = pyStrip "xx zz") := by decide
  have hne : ([⟨"hi", 0, 1, 9/10, 0, 1, "hi", some 0⟩,
      ⟨"ho", 1, 2, 9/10, 0, 1, "ho", some 1⟩] : List WordData) ≠ [] := by simp
  have hm0 : ¬ (lowerStr "hi" = lowerStr "xx") := by decide
  have hlen5 : ("xx yy" : String).length = 5 := by decide
  have hlen2 : ("xx" : String).length = 2 := by decide
  refine ⟨by decide, htok, rfl, ?_, by norm_num, by norm_num⟩
  simp only [calculate_timing_adjustments, if_neg hne, if_neg hstrip, htok]
  norm_num [adjustLoop, stepWord, nextCursor, posSynth, posReuse, timePerChar,
    List.get?, List.headD, List.getLastD, hm0, hlen5, hlen2]

theorem createParagraphFromWords_words (ws : List WordData) (i : Nat) (st : ℚ) :
    (createParagraphFromWords ws i st).words = ws := by
  unfold createParagraphFromWords
  match ws with
  | [] => rfl
  | w :: rest => rfl

theorem setIndices_append (i : Nat) (l1 l2 : List WordData) :
    setIndices i (l1 ++ l2) = setIndices i l1 ++ setIndices (i + l1.length) l2 := by
  induction l1 generalizing i with
  | nil => simp [setIndices]
  | cons w rest ih =>
    rw [List.cons_append, setIndices, setIndices, ih (i + 1), List.cons_append]
    have h : i + 1 + rest.length = i + (w :: rest).length := by
      simp only [List.length_cons]
      omega
    rw [h]

theorem fallbackLoop_words (ws : List WordData) :
    ∀ (paras : List ParagraphData) (buf : List WordData) (curSpk : Int)
      (pstart : ℚ) (wi : Nat),
      ((fallbackLoop ws paras buf curSpk pstart wi).map (·.words)).flatten =
        (paras.map (·.words)).flatten ++ buf ++ setIndices wi ws := by
  induction ws with
  | nil =>
    intro paras buf curSpk pstart wi
    rw [fallbackLoop]
    by_cases hb : buf.isEmpty
    · rw [if_pos hb]
      have : buf = [] := List.isEmpty_iff.mp hb
      simp [this, setIndices]
    · rw [if_neg hb]
      simp [createParagraphFromWords_words, setIndices]
  | cons w rest ih =>
    intro paras buf curSpk pstart wi
    rw [fallbackLoop]
    by_cases hbrk : (shouldBreakB buf curSpk { w with index := some (Int.ofNat wi) } &&
        !buf.isEmpty) = true
    · rw [if_pos hbrk]
      rw [ih]
      simp only [List.map_append, List.flatten_append, List.map_cons, List.map_nil,
        createParagraphFromWords_words, List.flatten_cons, List.flatten_nil,
        List.append_nil, setIndices]
      simp [List.append_assoc]
    · rw [if_neg hbrk]
      by_cases hlen : (buf ++ [{ w with index := some (Int.ofNat wi) }]).length = 1
      · rw [if_pos hlen, ih]
        simp [setIndices, List.append_assoc]
      · rw [if_neg hlen, ih]
        simp [setIndices, List.append_assoc]

theorem setIndices_map_index (l : List WordData) :
    ∀ i, (setIndices i l).map (·.index) =
      (List.range' i l.length).map (fun k => some (Int.ofNat k)) := by
  induction l with
  | nil => intro i; simp [setIndices]
  | cons w rest ih =>
    intro i
    rw [setIndices, List.length_cons, List.range'_succ]
    simp only [List.map_cons, ih (i + 1)]

/-- C2 (amended): on the fallback path (no provider-native paragraphs
structure) the paragraphs returned by `extract_paragraphs` partition the
document's word sequence exactly: their concatenated word lists, in order,
equal the document's flat words list with each word's `index` reassigned to
its position — the assignment the pass itself performs in place — and the
resulting `index` values form the sequence 0..N-1. The unamended claim also
asserts this equality on the native-structure path, where the walk instead
rebuilds words from the provider paragraph structure and never reads the
flat words list (see the counterexample). -/
theorem C2_partition_fallback (response : DeepgramResponse)
    (channel : DeepgramChannel) (restChannels : List DeepgramChannel)
    (alternative : DeepgramAlternative) (restAlts : List DeepgramAlternative)
    (hch : response.results.channels = channel :: restChannels)
    (halt : channel.alternatives = alternative :: restAlts)
    (hpar : alternative.paragraphs = none) :
    ((extract_paragraphs response).map (·.words)).flatten =
      setIndices 0 alternative.words ∧
    (((extract_paragraphs response).map (·.words)).flatten).map (·.index) =
      (List.range' 0 alternative.words.length).map (fun k => some (Int.ofNat k)) := by
  obtain ⟨meta, ⟨chs⟩⟩ := response
  replace hch : chs = channel :: restChannels := hch
  subst hch
  obtain ⟨alts⟩ := channel
  replace halt : alts = alternative :: restAlts := halt
  subst halt
  obtain ⟨tr, aws, apar⟩ := alternative
  replace hpar : apar = none := hpar
  subst hpar
  have hmain :
      ((extract_paragraphs ⟨meta, ⟨⟨(⟨tr, aws, none⟩ : DeepgramAlternative) :: restAlts⟩
          :: restChannels⟩⟩).map (·.words)).flatten = setIndices 0 aws := by
    show ((createParagraphsFromWords ⟨tr, aws, none⟩).map (·.words)).flatten =
      setIndices 0 aws
    unfold createParagraphsFromWords
    cases aws with
    | nil => simp [setIndices]
    | cons w0 t =>
      rw [fallbackLoop_words]
      simp
  refine ⟨hmain, ?_⟩
  rw [hmain, setIndices_map_index]

/-- C2 witness: the amended theorem at the two-word fallback document. -/
theorem C2_partition_fallback_witness :
    (mkSimpleResponse c2alt).results.channels = ⟨[c2alt]⟩ :: [] ∧
    (⟨[c2alt]⟩ : DeepgramChannel).alternatives = c2alt :: [] ∧
    c2alt.paragraphs = none ∧
    ((extract_paragraphs (mkSimpleResponse c2alt)).map (·.words)).flatten =
      setIndices 0 c2alt.words := by
  refine ⟨rfl, rfl, rfl, ?_⟩
  exact (C2_partition_fallback (mkSimpleResponse c2alt) ⟨[c2alt]⟩ [] c2alt [] rfl rfl rfl).1

/-- C2 counterexample: a Document whose provider paragraph structure lists
one word while its flat words list is empty. The native path returns one
paragraph with one (re-built) word, so the concatenated paragraph words do
not equal the document's flat word list. -/
theorem C2_counterexample :
    ¬ (((extract_paragraphs (mkSimpleResponse c2nativeAlt)).map (·.words)).flatten =
      c2nativeAlt.words) := by
  decide

/-- C6 (amended): with an empty target-paragraph word list the mutator
performs no splice and no reindexing — the word list and every other field
stay those of the input — but it still rebuilds the flat transcript string
as the space-join of the words' punctuated forms, so the document is
returned unchanged only when its transcript already equals that join. The
unamended claim says the document is returned entirely unchanged; the
rebuild of the transcript refutes that (see the counterexample). -/
theorem C6_empty_paragraph_words (response : DeepgramResponse)
    (channel : DeepgramChannel) (restChannels : List DeepgramChannel)
    (alternative : DeepgramAlternative) (restAlts : List DeepgramAlternative)
    (target : ParagraphData) (new_words : List WordData) (new_text : String)
    (hch : response.results.channels = channel :: restChannels)
    (halt : channel.alternatives = alternative :: restAlts)
    (hw : target.words = []) :
    updateResponseWithNewWords response target new_words new_text =
      { response with results := { channels :=
          { channel with alternatives :=
              { alternative with transcript :=
                  (pyJoin " " (alternative.words.map (·.punctuated_word))) } :: restAlts }
            :: restChannels } } := by
  obtain ⟨meta, ⟨chs⟩⟩ := response
  replace hch : chs = channel :: restChannels := hch
  subst hch
  obtain ⟨alts⟩ := channel
  replace halt : alts = alternative :: restAlts := halt
  subst halt
  obtain ⟨tid, ttext, tst, tet, tspk, tsents, twords, tconf⟩ := target
  replace hw : twords = [] := hw
  subst hw
  rfl

/-- C6 witness: the amended theorem at a concrete document; the resulting
transcript is the join `"hello"`, not the stored `"XYZ"`. -/
theorem C6_empty_paragraph_words_witness :
    (mkSimpleResponse c6alt).results.channels = ⟨[c6alt]⟩ :: [] ∧
    (⟨[c6alt]⟩ : DeepgramChannel).alternatives = c6alt :: [] ∧
    c6para.words = [] ∧
    updateResponseWithNewWords (mkSimpleResponse c6alt) c6para [] "" =
      { mkSimpleResponse c6alt with results := { channels :=
          { (⟨[c6alt]⟩ : DeepgramChannel) with alternatives :=
              { c6alt with transcript :=
                  (pyJoin " " (c6alt.words.map (·.punctuated_word))) } :: [] } :: [] } } :=
  ⟨rfl, rfl, rfl,
    C6_empty_paragraph_words (mkSimpleResponse c6alt) ⟨[c6alt]⟩ [] c6alt [] c6para [] ""
      rfl rfl rfl⟩

/-- C6 counterexample: for a document whose transcript (`"XYZ"`) differs
from the join of its words' punctuated forms (`"hello"`), the mutator called
with an empty-word paragraph returns a document whose transcript has been
rewritten — the document is not returned unchanged. -/
theorem C6_counterexample :
    c6para.words = [] ∧
    (firstAlternative (updateResponseWithNewWords (mkSimpleResponse c6alt)
      c6para [] "")).transcript = "hello" ∧
    (firstAlternative (mkSimpleResponse c6alt)).transcript = "XYZ" := by
  refine ⟨rfl, ?_, rfl⟩
  decide

theorem pyTakeTo_of_nonneg (l : List WordData) (k : Int) (hk : 0 ≤ k) :
    pyTakeTo l k = l.take k.toNat := by
  unfold pyTakeTo
  rw [if_neg (by omega)]

theorem pyDropFrom_of_nonneg (l : List WordData) (k : Int) (hk : 0 ≤ k) :
    pyDropFrom l k = l.drop k.toNat := by
  unfold pyDropFrom
  rw [if_neg (by omega)]

theorem le_foldl_min (l : List Int) :
    ∀ (b a : Int), b ≤ a → (∀ j ∈ l, b ≤ j) → b ≤ l.foldl min a := by
  induction l with
  | nil => intro b a hba _; simpa using hba
  | cons x rest ih =>
    intro b a hba hl
    simp only [List.foldl_cons]
    exact ih b (min a x) (le_min hba (hl x (by simp))) (fun j hj => hl j (by simp [hj]))

theorem foldl_min_le_init (l : List Int) : ∀ a : Int, l.foldl min a ≤ a := by
  induction l with
  | nil => intro a; simp
  | cons x rest ih =>
    intro a
    simp only [List.foldl_cons]
    exact (ih (min a x)).trans (min_le_left a x)

theorem le_foldl_max (l : List Int) : ∀ (b a : Int), b ≤ a → b ≤ l.foldl max a := by
  induction l with
  | nil => intro b a h; simpa using h
  | cons x rest ih =>
    intro b a h
    simp only [List.foldl_cons]
    exact ih b (max a x) (h.trans (le_max_left a x))

theorem foldl_max_lt_of_lt (l : List Int) :
    ∀ (a n : Int), a < n → (∀ j ∈ l, j < n) → l.foldl max a < n := by
  induction l with
  | nil => intro a n ha _; simpa using ha
  | cons x rest ih =>
    intro a n ha hl
    simp only [List.foldl_cons]
    exact ih (max a x) n (max_lt ha (hl x (by simp))) (fun j hj => hl j (by simp [hj]))

theorem setIndices_get? (l : List WordData) :
    ∀ i k, (setIndices i l).get? k =
      (l.get? k).map (fun w => { w with index := some (Int.ofNat (i + k)) }) := by
  induction l with
  | nil => intro i k; simp [setIndices]
  | cons w rest ih =>
    intro i k
    match k with
    | 0 => simp [setIndices]
    | k + 1 =>
      rw [setIndices]
      simp only [List.get?]
      have h : i + 1 + k = i + (k + 1) := by omega
      rw [ih (i + 1) k, h]

theorem setIndices_length (l : List WordData) : ∀ i, (setIndices i l).length = l.length := by
  induction l with
  | nil => intro i; rfl
  | cons w rest ih => intro i; simp [setIndices, ih (i + 1)]

/-- C5: for a document with a first channel/alternative, a target paragraph
whose words all carry a defined, in-range `globalIndex` (index list
`i0 :: irest`), and any replacement word list, the mutator (operating on the
deep copy the source makes — the model is pure, so mutation of the caller's
input is impossible by construction) replaces exactly the span
`[min, max+1)` of the flat word list, leaves every word before the span at
its position and every word after the span shifted by the replacement,
identical except for its reassigned `globalIndex`, and reassigns
`globalIndex` sequentially 0..N-1 over the whole resulting list. -/
theorem C5_splice_locality (response : DeepgramResponse)
    (channel : DeepgramChannel) (restChannels : List DeepgramChannel)
    (alternative : DeepgramAlternative) (restAlts : List DeepgramAlternative)
    (target : ParagraphData) (new_words : List WordData) (new_text : String)
    (i0 : Int) (irest : List Int)
    (hch : response.results.channels = channel :: restChannels)
    (halt : channel.alternatives = alternative :: restAlts)
    (hidx : target.words.filterMap (·.index) = i0 :: irest)
    (hnonneg : ∀ j ∈ i0 :: irest, 0 ≤ j)
    (hbound : ∀ j ∈ i0 :: irest, j < (alternative.words.length : Int)) :
    updateResponseWithNewWords response target new_words new_text =
      { response with results := { channels :=
          { channel with alternatives :=
              { alternative with
                words := splicedWordList alternative.words new_words i0 irest,
                transcript :=
                  (pyJoin " " ((splicedWordList alternative.words new_words i0
                    irest).map (·.punctuated_word))) } :: restAlts }
            :: restChannels } } ∧
    (∀ k, k < (irest.foldl min i0).toNat →
      (splicedWordList alternative.words new_words i0 irest).get? k =
        (alternative.words.get? k).map
          (fun w => { w with index := some (Int.ofNat k) })) ∧
    (∀ k, (irest.foldl max i0).toNat + 1 ≤ k → k < alternative.words.length →
      (splicedWordList alternative.words new_words i0 irest).get?
          ((irest.foldl min i0).toNat + new_words.length +
            (k - ((irest.foldl max i0).toNat + 1))) =
        (alternative.words.get? k).map
          (fun w => { w with index := some (Int.ofNat
            ((irest.foldl min i0).toNat + new_words.length +
              (k - ((irest.foldl max i0).toNat + 1)))) })) ∧
    (splicedWordList alternative.words new_words i0 irest).map (·.index) =
      (List.range' 0 (alternative.words.take (irest.foldl min i0).toNat ++ new_words ++
        alternative.words.drop ((irest.foldl max i0).toNat + 1)).length).map
        (fun k => some (Int.ofNat k)) := by
  have hi0mem : i0 ∈ i0 :: irest := by simp
  have hi00 : 0 ≤ i0 := hnonneg i0 hi0mem
  have hs0 : 0 ≤ irest.foldl min i0 :=
    le_foldl_min irest 0 i0 hi00 (fun j hj => hnonneg j (by simp [hj]))
  have hsi0 : irest.foldl min i0 ≤ i0 := foldl_min_le_init irest i0
  have hi0len : i0 < (alternative.words.length : Int) := hbound i0 hi0mem
  have hsltlen : (irest.foldl min i0).toNat < alternative.words.length := by omega
  have he0 : 0 ≤ irest.foldl max i0 := hi00.trans (le_foldl_max irest i0 i0 le_rfl)
  have heltlen : irest.foldl max i0 < (alternative.words.length : Int) :=
    foldl_max_lt_of_lt irest i0 _ hi0len (fun j hj => hbound j (by simp [hj]))
  have helen : (irest.foldl max i0).toNat + 1 ≤ alternative.words.length := by omega
  refine ⟨?_, ?_, ?_, ?_⟩
  · obtain ⟨meta, ⟨chs⟩⟩ := response
    replace hch : chs = channel :: restChannels := hch
    subst hch
    obtain ⟨alts⟩ := channel
    replace halt : alts = alternative :: restAlts := halt
    subst halt
    unfold updateResponseWithNewWords
    rw [hidx]
    dsimp only
    rw [pyTakeTo_of_nonneg _ _ hs0, pyDropFrom_of_nonneg _ _ (by omega)]
    have ht : (irest.foldl max i0 + 1).toNat = (irest.foldl max i0).toNat + 1 := by omega
    rw [ht]
    unfold splicedWordList
    rfl
  · intro k hk
    unfold splicedWordList
    rw [setIndices_get?]
    have h1 : k < (alternative.words.take (irest.foldl min i0).toNat ++ new_words).length := by
      rw [List.length_append, List.length_take]
      omega
    have h2 : k < (alternative.words.take (irest.foldl min i0).toNat).length := by
      rw [List.length_take]
      omega
    rw [List.get?_append h1, List.get?_append h2, List.get?_take hk]
    have hz : 0 + k = k := by omega
    rw [hz]
  · intro k hke hklen
    unfold splicedWordList
    rw [setIndices_get?]
    have hlen1 : (alternative.words.take (irest.foldl min i0).toNat ++ new_words).length =
        (irest.foldl min i0).toNat + new_words.length := by
      rw [List.length_append, List.length_take]
      omega
    rw [List.get?_append_right (by rw [hlen1]; omega)]
    rw [hlen1]
    have h3 : (irest.foldl min i0).toNat + new_words.length +
        (k - ((irest.foldl max i0).toNat + 1)) -
        ((irest.foldl min i0).toNat + new_words.length) =
        k - ((irest.foldl max i0).toNat + 1) := by omega
    rw [h3]
    rw [List.get?_drop]
    have h4 : (irest.foldl max i0).toNat + 1 + (k - ((irest.foldl max i0).toNat + 1)) = k := by
      omega
    rw [h4]
    have hz : 0 + ((irest.foldl min i0).toNat + new_words.length +
        (k - ((irest.foldl max i0).toNat + 1))) =
        (irest.foldl min i0).toNat + new_words.length +
          (k - ((irest.foldl max i0).toNat + 1)) := by omega
    rw [hz]
  · unfold splicedWordList
    rw [setIndices_map_index]

/-- C5 witness: the theorem applied to a three-word document whose middle
word (globalIndex span [1, 2)) is replaced by two words. -/
theorem C5_splice_locality_witness :
    (mkSimpleResponse c5alt).results.channels = ⟨[c5alt]⟩ :: [] ∧
    (⟨[c5alt]⟩ : DeepgramChannel).alternatives = c5alt :: [] ∧
    c5para.words.filterMap (·.index) = 1 :: [] ∧
    (∀ j ∈ (1 : Int) :: [], 0 ≤ j) ∧
    (∀ j ∈ (1 : Int) :: [], j < (c5alt.words.length : Int)) ∧
    (splicedWordList c5alt.words c5new 1 []).map (·.index) =
      (List.range' 0 (c5alt.words.take (([] : List Int).foldl min 1).toNat ++ c5new ++
        c5alt.words.drop ((([] : List Int).foldl max 1).toNat + 1)).length).map
        (fun k => some (Int.ofNat k)) := by
  refine ⟨rfl, rfl, by decide, by decide, by decide, ?_⟩
  exact (C5_splice_locality (mkSimpleResponse c5alt) ⟨[c5alt]⟩ [] c5alt [] c5para c5new
    "X Y" 1 [] rfl rfl (by decide) (by decide) (by decide)).2.2.2

theorem sorted_get_le (a : List ℚ) (hsorted : List.Pairwise (· ≤ ·) a)
    {i j : Nat} (hij : i ≤ j) (hi : i < a.length) (hj : j < a.length) :
    a.get ⟨i, hi⟩ ≤ a.get ⟨j, hj⟩ := by
  rcases Nat.lt_or_ge i j with h | h
  · exact List.pairwise_iff_get.mp hsorted _ _ h
  · have heq : i = j := by omega
    subst heq
    exact le_rfl

theorem get?_some_elim (a : List ℚ) {j : Nat} {s : ℚ} (h : a.get? j = some s) :
    ∃ hj : j < a.length, a.get ⟨j, hj⟩ = s := by
  have hj : j < a.length := by
    by_contra hcon
    rw [List.get?_eq_none.mpr (by omega)] at h
    cases h
  refine ⟨hj, ?_⟩
  have hg := List.get?_eq_get hj
  rw [hg] at h
  exact Option.some.inj h

theorem bisectLoop_insertion (a : List ℚ) (x : ℚ)
    (hsorted : List.Pairwise (· ≤ ·) a) :
    ∀ (n lo hi : Nat), hi - lo = n → lo ≤ hi → hi ≤ a.length →
      (∀ j, j < lo → ∀ s, a.get? j = some s → s < x) →
      (∀ j, hi ≤ j → ∀ s, a.get? j = some s → ¬ s < x) →
      lo ≤ bisectLoop a x lo hi ∧ bisectLoop a x lo hi ≤ hi ∧
      (∀ j, j < bisectLoop a x lo hi → ∀ s, a.get? j = some s → s < x) ∧
      (∀ j, bisectLoop a x lo hi ≤ j → ∀ s, a.get? j = some s → ¬ s < x) := by
  intro n
  induction n using Nat.strong_induction_on with
  | _ n ih =>
    intro lo hi hn hlohi hhilen hlo hhi
    rw [bisectLoop]
    by_cases h : lo < hi
    · rw [dif_pos h]
      dsimp only
      have hmidlo : lo ≤ (lo + hi) / 2 := by omega
      have hmidhi : (lo + hi) / 2 < hi := by omega
      have hmidlen : (lo + hi) / 2 < a.length := by omega
      have hgetD : a.getD ((lo + hi) / 2) 0 = a.get ⟨(lo + hi) / 2, hmidlen⟩ := by
        rw [List.getD_eq_get?, List.get?_eq_get hmidlen]
        rfl
      by_cases hc : a.getD ((lo + hi) / 2) 0 < x
      · rw [if_pos hc]
        have hrec := ih (hi - ((lo + hi) / 2 + 1)) (by omega) ((lo + hi) / 2 + 1) hi rfl
          (by omega) hhilen ?_ hhi
        · exact ⟨le_trans (by omega) hrec.1, hrec.2.1, hrec.2.2.1, hrec.2.2.2⟩
        · intro j hj s hjs
          obtain ⟨hjlen, rfl⟩ := get?_some_elim a hjs
          have hle : a.get ⟨j, hjlen⟩ ≤ a.get ⟨(lo + hi) / 2, hmidlen⟩ :=
            sorted_get_le a hsorted (by omega) hjlen hmidlen
          rw [hgetD] at hc
          exact lt_of_le_of_lt hle hc
      · rw [if_neg hc]
        have hrec := ih ((lo + hi) / 2 - lo) (by omega) lo ((lo + hi) / 2) rfl
          (by omega) (by omega) hlo ?_
        · exact ⟨hrec.1, le_trans hrec.2.1 (by omega), hrec.2.2.1, hrec.2.2.2⟩
        · intro j hj s hjs
          obtain ⟨hjlen, rfl⟩ := get?_some_elim a hjs
          intro hsx
          apply hc
          rw [hgetD]
          exact lt_of_le_of_lt (sorted_get_le a hsorted hj hmidlen hjlen) hsx
    · rw [dif_neg h]
      have heq : lo = hi := by omega
      exact ⟨le_rfl, by omega, hlo, fun j hj => hhi j (by omega)⟩

theorem bisect_left_insertion (a : List ℚ) (x : ℚ)
    (hsorted : List.Pairwise (· ≤ ·) a) :
    bisect_left a x ≤ a.length ∧
    (∀ j, j < bisect_left a x → ∀ s, a.get? j = some s → s < x) ∧
    (∀ j, bisect_left a x ≤ j → ∀ s, a.get? j = some s → ¬ s < x) := by
  have h := bisectLoop_insertion a x hsorted a.length 0 a.length rfl (by omega) le_rfl
    (fun j hj => absurd hj (by omega))
    (fun j hj s hjs => by
      rw [List.get?_eq_none.mpr (by omega)] at hjs
      cases hjs)
  exact ⟨h.2.1, h.2.2.1, h.2.2.2⟩

/-- C7: for a document whose flat word list is sorted by `start`,
`find_word_at_time` computes the insertion point of `t` in the start values
by binary search (`bisect_left` satisfies the insertion-point
characterization), checks the word at the preceding index before the word
at the located index and returns the first of the two whose `[start, end]`
interval contains `t` (`checkCandidate`), returning `none` — not an error —
when neither does; on the spec's example document with (start, end) pairs
(0,1), (1,2), (3,4): the query at 0.5 returns word 0 and the query at 2.5
returns `none`. -/
theorem C7_find_word_at_time :
    (∀ (response : DeepgramResponse) (channel : DeepgramChannel)
      (restChannels : List DeepgramChannel) (alternative : DeepgramAlternative)
      (restAlts : List DeepgramAlternative) (t : ℚ),
      response.results.channels = channel :: restChannels →
      channel.alternatives = alternative :: restAlts →
      List.Pairwise (· ≤ ·) (alternative.words.map (·.start)) →
      (bisect_left (alternative.words.map (·.start)) t ≤ alternative.words.length ∧
        (∀ j, j < bisect_left (alternative.words.map (·.start)) t →
          ∀ s, (alternative.words.map (·.start)).get? j = some s → s < t) ∧
        (∀ j, bisect_left (alternative.words.map (·.start)) t ≤ j →
          ∀ s, (alternative.words.map (·.start)).get? j = some s → ¬ s < t)) ∧
      (∀ w, checkCandidate alternative.words t
          ((bisect_left (alternative.words.map (·.start)) t : Int) - 1) = some w →
        find_word_at_time response t = some w) ∧
      (checkCandidate alternative.words t
          ((bisect_left (alternative.words.map (·.start)) t : Int) - 1) = none →
        find_word_at_time response t =
          checkCandidate alternative.words t
            ((bisect_left (alternative.words.map (·.start)) t : Int)))) ∧
    find_word_at_time (mkSimpleResponse c7alt) (1/2) =
      some ⟨"w0", 0, 1, 1, 0, 1, "w0", some 0⟩ ∧
    find_word_at_time (mkSimpleResponse c7alt) (5/2) = none := by
  have hsorted013 : List.Pairwise (· ≤ ·) [(0:ℚ), 1, 3] := by
    norm_num [List.pairwise_cons]
  have hmap : c7alt.words.map (·.start) = [(0:ℚ), 1, 3] := rfl
  have hb1 : bisect_left [(0:ℚ), 1, 3] (1/2) = 1 := by
    obtain ⟨hlen, hlt, hge⟩ := bisect_left_insertion [(0:ℚ), 1, 3] (1/2) hsorted013
    have hgt0 : 0 < bisect_left [(0:ℚ), 1, 3] (1/2) := by
      by_contra hz
      have h := hge 0 (by omega) 0 rfl
      norm_num at h
    have hlt2 : bisect_left [(0:ℚ), 1, 3] (1/2) < 2 := by
      by_contra hge2
      have h := hlt 1 (by omega) 1 rfl
      norm_num at h
    omega
  have hb2 : bisect_left [(0:ℚ), 1, 3] (5/2) = 2 := by
    obtain ⟨hlen, hlt, hge⟩ := bisect_left_insertion [(0:ℚ), 1, 3] (5/2) hsorted013
    have hgt1 : 1 < bisect_left [(0:ℚ), 1, 3] (5/2) := by
      by_contra hz
      have h := hge 1 (by omega) 1 rfl
      norm_num at h
    have hlt3 : bisect_left [(0:ℚ), 1, 3] (5/2) < 3 := by
      by_contra hge3
      have h := hlt 2 (by omega) 3 rfl
      norm_num at h
    omega
  refine ⟨?_, ?_, ?_⟩
  · intro response channel restChannels alternative restAlts t hch halt hsorted
    obtain ⟨meta, ⟨chs⟩⟩ := response
    replace hch : chs = channel :: restChannels := hch
    subst hch
    obtain ⟨alts⟩ := channel
    replace halt : alts = alternative :: restAlts := halt
    subst halt
    have hins := bisect_left_insertion (alternative.words.map (·.start)) t hsorted
    refine ⟨⟨by simpa using hins.1, hins.2.1, hins.2.2⟩, ?_, ?_⟩
    · intro w hw
      unfold find_word_at_time
      dsimp only
      rw [hw]
    · intro hnone
      unfold find_word_at_time
      dsimp only
      rw [hnone]
  · unfold find_word_at_time mkSimpleResponse
    dsimp only
    rw [hmap, hb1]
    norm_num [checkCandidate, c7alt, List.get?]
  · unfold find_word_at_time mkSimpleResponse
    dsimp only
    rw [hmap, hb2]
    norm_num [checkCandidate, c7alt, List.get?]

/-- C7 witness: the general characterization applied to the example document
at query time 0.5. -/
theorem C7_find_word_at_time_witness :
    (mkSimpleResponse c7alt).results.channels = ⟨[c7alt]⟩ :: [] ∧
    (⟨[c7alt]⟩ : DeepgramChannel).alternatives = c7alt :: [] ∧
    List.Pairwise (· ≤ ·) (c7alt.words.map (·.start)) ∧
    bisect_left (c7alt.words.map (·.start)) (1/2) ≤ c7alt.words.length := by
  have hs : List.Pairwise (· ≤ ·) (c7alt.words.map (·.start)) := by
    norm_num [c7alt, List.pairwise_cons]
  exact ⟨rfl, rfl, hs,
    (C7_find_word_at_time.1 (mkSimpleResponse c7alt) ⟨[c7alt]⟩ [] c7alt [] (1/2)
      rfl rfl hs).1.1⟩

theorem get_words_in_time_range_eq (response : DeepgramResponse) (s e : ℚ) :
    get_words_in_time_range response s e =
      (firstAlternative response).words.filter
        (fun w => decide (w.start ≤ e ∧ s ≤ w.endT)) := by
  obtain ⟨meta, ⟨chs⟩⟩ := response
  cases chs with
  | nil => rfl
  | cons ch rest =>
    obtain ⟨alts⟩ := ch
    cases alts with
    | nil => rfl
    | cons alt restAlts => rfl

/-- C8: the checked range query fails with the "invalid range" error exactly
when `start_time >= end_time`, and for every valid range returns — as a
plain list, never an error — exactly those words of the document's flat word
list whose interval overlaps the query interval
(`word.start <= end_time` and `word.end >= start_time`); if no word
overlaps, the filter is empty, still not an error. -/
theorem C8_words_in_range (response : DeepgramResponse) (start_time end_time : ℚ) :
    (start_time ≥ end_time →
      getWordsInRangeChecked response start_time end_time =
        Except.error "Start time must be less than end time") ∧
    (start_time < end_time →
      getWordsInRangeChecked response start_time end_time =
        Except.ok ((firstAlternative response).words.filter
          (fun w => decide (w.start ≤ end_time ∧ start_time ≤ w.endT)))) := by
  constructor
  · intro h
    unfold getWordsInRangeChecked
    rw [if_pos h]
  · intro h
    unfold getWordsInRangeChecked
    rw [if_neg (not_le.mpr h), get_words_in_time_range_eq]

/-- C8 witness: the theorem at the example document — an inverted range
errors, the range [0, 2.5] returns the overlap filter. -/
theorem C8_words_in_range_witness :
    getWordsInRangeChecked (mkSimpleResponse c7alt) 1 0 =
      Except.error "Start time must be less than end time" ∧
    getWordsInRangeChecked (mkSimpleResponse c7alt) 0 (5/2) =
      Except.ok ((firstAlternative (mkSimpleResponse c7alt)).words.filter
        (fun w => decide (w.start ≤ 5/2 ∧ 0 ≤ w.endT))) :=
  ⟨(C8_words_in_range (mkSimpleResponse c7alt) 1 0).1 (by norm_num),
   (C8_words_in_range (mkSimpleResponse c7alt) 0 (5/2)).2 (by norm_num)⟩

theorem runOps_spec (ops : List VersionOp) :
    ∀ st : VersionStoreState,
      (∀ f ∈ st.files, f < (loadMetadata st).next_version) →
      (runOps st ops).2.2 = true ∧
      List.Chain' (· < ·) (runOps st ops).2.1 ∧
      (∀ a ∈ (runOps st ops).2.1, (loadMetadata st).next_version ≤ a) := by
  induction ops with
  | nil => intro st hinv; simp [runOps]
  | cons op rest ih =>
    intro st hinv
    cases op with
    | save changes =>
      have hnotmem : (loadMetadata st).next_version ∉ st.files := by
        intro hmem
        exact absurd (hinv _ hmem) (lt_irrefl _)
      have hinv' : ∀ f ∈ st.files ++ [(loadMetadata st).next_version],
          f < (loadMetadata st).next_version + 1 := by
        intro f hf
        rcases List.mem_append.mp hf with hf | hf
        · exact Nat.lt_succ_of_lt (hinv f hf)
        · simp only [List.mem_singleton] at hf
          omega
      have hrec := ih ⟨some
        { versions := (loadMetadata st).versions ++
            [{ version := (loadMetadata st).next_version,
               filename := versionFilename (loadMetadata st).next_version,
               changes := changes }],
          next_version := (loadMetadata st).next_version + 1 },
        st.files ++ [(loadMetadata st).next_version]⟩ (by simpa [loadMetadata] using hinv')
      simp only [runOps, save_version]
      refine ⟨?_, ?_, ?_⟩
      · simp only [Bool.and_eq_true, decide_eq_true_eq]
        exact ⟨hnotmem, hrec.1⟩
      · rw [List.chain'_cons']
        refine ⟨?_, hrec.2.1⟩
        intro y hy
        have hmem : y ∈ (runOps _ rest).2.1 := List.mem_of_mem_head? hy
        have := hrec.2.2 y hmem
        simp only [loadMetadata, Option.getD_some] at this ⊢
        omega
      · intro a ha
        rcases List.mem_cons.mp ha with rfl | ha
        · exact le_rfl
        · have := hrec.2.2 a ha
          simp only [loadMetadata, Option.getD_some] at this ⊢
          omega
    | delete v =>
      by_cases hv : v ∈ st.files
      · have hinv' : ∀ f ∈ st.files.erase v,
            f < (loadMetadata st).next_version := by
          intro f hf
          exact hinv f (List.mem_of_mem_erase hf)
        have hrec := ih ⟨some
          { versions := (loadMetadata st).versions.filter (fun e => e.version != v),
            next_version := (loadMetadata st).next_version },
          st.files.erase v⟩ (by simpa [loadMetadata] using hinv')
        simp only [runOps, delete_version, if_pos hv]
        refine ⟨hrec.1, hrec.2.1, ?_⟩
        intro a ha
        have := hrec.2.2 a ha
        simpa [loadMetadata] using this
      · simp only [runOps, delete_version, if_neg hv]
        exact ih st hinv

/-- C9: from a fresh source key, along every sequence of `save_version` /
`delete_version` calls, the version numbers allocated by the saves are
strictly increasing (hence never reused, even after intervening deletes) and
no save ever targets an artifact file that already exists (no overwrite);
in particular the trace save, save, delete(1), save allocates versions
0, 1, 2 — version 1 is not reused — and a further save allocates 3. The
unamended claim's example expects that trace to allocate 0, 1, 2, 3: its
three saves can only allocate three numbers (see the counterexample). -/
theorem C9_version_monotonic :
    (∀ ops : List VersionOp,
      (runOps initialStoreState ops).2.2 = true ∧
      List.Chain' (· < ·) (runOps initialStoreState ops).2.1) ∧
    (runOps initialStoreState
      [VersionOp.save "", VersionOp.save "", VersionOp.delete 1,
       VersionOp.save ""]).2.1 = [0, 1, 2] ∧
    (runOps initialStoreState
      [VersionOp.save "", VersionOp.save "", VersionOp.delete 1,
       VersionOp.save "", VersionOp.save ""]).2.1 = [0, 1, 2, 3] := by
  refine ⟨?_, by decide, by decide⟩
  intro ops
  have h := runOps_spec ops initialStoreState (by intro f hf; simp [initialStoreState] at hf)
  exact ⟨h.1, h.2.1⟩

/-- C9 counterexample: the claim's own example trace — save, save,
delete(1), save — allocates the versions 0, 1, 2 (its three saves allocate
three numbers), not 0, 1, 2, 3 as the claim states. -/
theorem C9_counterexample :
    (runOps initialStoreState
      [VersionOp.save "", VersionOp.save "", VersionOp.delete 1,
       VersionOp.save ""]).2.1 = [0, 1, 2] ∧
    ¬ ((runOps initialStoreState
      [VersionOp.save "", VersionOp.save "", VersionOp.delete 1,
       VersionOp.save ""]).2.1 = [0, 1, 2, 3]) := by
  constructor
  · decide
  · decide
